import Mathlib

/-!
Verification of the glue logic of `src/run.py` (object-detection fine-tuning
script): the box-validity filter `filter_and_correct_boxes`, the COCO
`[x, y, w, h]` to `[x1, y1, x2, y2]` coordinate conversion, the aggregation
performed by `evaluate_model`, the best-checkpoint selection of the training
loop, the duplicated `draw_boxes` visualization routines, and the
2-class box-predictor replacement.

Tensors of box coordinates are modelled as lists of rational 4-tuples,
label tensors as lists of integers.  External library computations
(`torchvision.ops.box_iou` entries, font metrics, score formatting) are
abstract parameters; everything original to the script is translated
directly from the source.
-/

namespace RunPy

/-- Row of a boxes tensor: the four coordinates `box[0] .. box[3]` of one
bounding box (floating-point in the script, rationals here). -/
structure Box where
  b0 : ℚ
  b1 : ℚ
  b2 : ℚ
  b3 : ℚ
deriving DecidableEq, Repr

/-- Validity test of `filter_and_correct_boxes` (run.py line 57):
`box[2] > box[0] and box[3] > box[1]`. -/
def validBox (b : Box) : Bool :=
  decide (b.b2 > b.b0) && decide (b.b3 > b.b1)

/-- One element of a `targets` list: a boxes tensor and a labels tensor
(`target['boxes']`, `target['labels']`). -/
structure Target where
  boxes : List Box
  labels : List ℤ
deriving DecidableEq, Repr

/-- Accumulation of `valid_indices` by the
`for i, box in enumerate(boxes)` loop (run.py lines 55-60), with `n` the
index of the first remaining box. -/
def validIndicesFrom (n : ℕ) : List Box → List ℕ
  | [] => []
  | b :: bs =>
    if validBox b then n :: validIndicesFrom (n + 1) bs
    else validIndicesFrom (n + 1) bs

/-- Content of the Python list `valid_indices` after the loop. -/
def valid_indices (boxes : List Box) : List ℕ := validIndicesFrom 0 boxes

/-- Fancy indexing `tensor[valid_indices]` (run.py lines 61-62): pick the
rows at the given indices, in order. -/
def select (l : List α) (idxs : List ℕ) : List α :=
  idxs.filterMap fun i => l[i]?

/-- Body of the outer loop of `filter_and_correct_boxes` (run.py lines
52-63): compute `valid_indices` from the boxes and keep the box rows and
label entries at those indices. -/
def filterTarget (t : Target) : Target :=
  let vi := valid_indices t.boxes
  { boxes := select t.boxes vi, labels := select t.labels vi }

/-- Translation of `filter_and_correct_boxes` (run.py lines 50-64): the
outer loop builds `filtered_targets` by appending the filtered form of each
target in order. -/
def filter_and_correct_boxes (targets : List Target) : List Target :=
  targets.map filterTarget

/-! Helper lemmas about `validIndicesFrom` and `select`. -/

theorem validIndicesFrom_ge {n i : ℕ} : ∀ {bs : List Box},
    i ∈ validIndicesFrom n bs → n ≤ i := by
  intro bs
  induction bs generalizing n with
  | nil => simp [validIndicesFrom]
  | cons b bs ih =>
    intro hmem
    simp only [validIndicesFrom] at hmem
    by_cases hb : validBox b
    · simp [hb] at hmem
      rcases hmem with h | h
      · omega
      · have := ih h; omega
    · simp [hb] at hmem
      have := ih hmem; omega

theorem select_eq_nil_of_ge {l : List α} {idxs : List ℕ}
    (h : ∀ i ∈ idxs, l.length ≤ i) : select l idxs = [] := by
  induction idxs with
  | nil => rfl
  | cons i idxs ih =>
    have hi : l.length ≤ i := h i (by simp)
    have : l[i]? = none := by
      rw [List.getElem?_eq_none_iff]; exact hi
    simp only [select, List.filterMap_cons, this]
    exact ih fun j hj => h j (by simp [hj])

/-- Selecting from `pre ++ ls` at the valid indices of `bs` (started at
`pre.length`) keeps exactly the `ls`-entries sitting at positions where the
parallel box is valid. -/
theorem select_validIndicesFrom {α : Type _} :
    ∀ (bs : List Box) (ls pre : List α), ls.length = bs.length →
      select (pre ++ ls) (validIndicesFrom pre.length bs)
        = ((bs.zip ls).filter fun p => validBox p.1).map Prod.snd := by
  intro bs
  induction bs with
  | nil =>
    intro ls pre hlen
    have : ls = [] := List.eq_nil_of_length_eq_zero hlen
    subst this
    simp [validIndicesFrom, select]
  | cons b bs ih =>
    intro ls pre hlen
    cases ls with
    | nil => simp at hlen
    | cons a ls =>
      have hlen' : ls.length = bs.length := by simpa using hlen
      have hget : (pre ++ a :: ls)[pre.length]? = some a := by
        rw [List.getElem?_append_right (Nat.le_refl _)]
        simp
      have happ : pre ++ a :: ls = (pre ++ [a]) ++ ls := by
        simp
      have hlen2 : (pre ++ [a]).length = pre.length + 1 := by simp
      by_cases hb : validBox b
      · simp only [validIndicesFrom, hb, if_pos, select, List.filterMap_cons, hget]
        have := ih ls (pre ++ [a]) hlen'
        rw [hlen2] at this
        rw [happ]
        simp only [select] at this
        rw [this]
        simp [hb]
      · simp only [validIndicesFrom, hb, if_neg, Bool.false_eq_true, not_false_iff]
        have := ih ls (pre ++ [a]) hlen'
        rw [hlen2] at this
        rw [happ]
        simp only [select] at this ⊢
        rw [this]
        simp [hb]

theorem zip_self_filter_map_snd (bs : List Box) :
    ((bs.zip bs).filter fun p => validBox p.1).map Prod.snd = bs.filter validBox := by
  induction bs with
  | nil => rfl
  | cons b bs ih =>
    by_cases hb : validBox b <;> simp [hb, ih]

/-- The selected boxes are exactly the valid ones, with no hypothesis. -/
theorem select_boxes_eq_filter (bs : List Box) :
    select bs (valid_indices bs) = bs.filter validBox := by
  have := select_validIndicesFrom bs bs ([] : List Box) rfl
  simpa [valid_indices, zip_self_filter_map_snd] using this

/-- Characterisation of the labels kept by the filter, given parallel
tensors of equal length. -/
theorem select_labels_eq (bs : List Box) (ls : List ℤ)
    (hlen : ls.length = bs.length) :
    select ls (valid_indices bs)
      = ((bs.zip ls).filter fun p => validBox p.1).map Prod.snd := by
  simpa [valid_indices] using select_validIndicesFrom bs ls [] hlen

theorem zip_filter_recombine {α : Type _} (bs : List Box) (ls : List α)
    (hlen : ls.length = bs.length) :
    (bs.filter validBox).zip
        (((bs.zip ls).filter fun p => validBox p.1).map Prod.snd)
      = (bs.zip ls).filter fun p => validBox p.1 := by
  induction bs generalizing ls with
  | nil => simp
  | cons b bs ih =>
    cases ls with
    | nil => simp at hlen
    | cons a ls =>
      have hlen' : ls.length = bs.length := by simpa using hlen
      by_cases hb : validBox b <;> simp [hb, ih ls hlen']

/-- Selecting from `pre ++ l` at the valid indices of an all-valid box list
truncates `l` to the box count. -/
theorem select_validIndicesFrom_all_valid {α : Type _} :
    ∀ (bs : List Box), (∀ b ∈ bs, validBox b) → ∀ (l pre : List α),
      select (pre ++ l) (validIndicesFrom pre.length bs) = l.take bs.length := by
  intro bs
  induction bs with
  | nil => intro _ l pre; simp [validIndicesFrom, select]
  | cons b bs ih =>
    intro hval l pre
    have hb : validBox b := hval b (by simp)
    have hval' : ∀ x ∈ bs, validBox x := fun x hx => hval x (by simp [hx])
    cases l with
    | nil =>
      have : select (pre ++ ([] : List α)) (validIndicesFrom pre.length (b :: bs)) = [] := by
        apply select_eq_nil_of_ge
        intro i hi
        have := validIndicesFrom_ge hi
        simp; omega
      simpa using this
    | cons a l =>
      have hget : (pre ++ a :: l)[pre.length]? = some a := by
        rw [List.getElem?_append_right (Nat.le_refl _)]
        simp
      have happ : pre ++ a :: l = (pre ++ [a]) ++ l := by simp
      have hlen2 : (pre ++ [a]).length = pre.length + 1 := by simp
      simp only [validIndicesFrom, hb, if_pos, select, List.filterMap_cons, hget]
      have := ih hval' l (pre ++ [a])
      rw [hlen2] at this
      rw [happ]
      simp only [select] at this
      rw [this]
      simp

theorem length_validIndicesFrom (bs : List Box) :
    ∀ n, (validIndicesFrom n bs).length = (bs.filter validBox).length := by
  induction bs with
  | nil => intro n; rfl
  | cons b bs ih =>
    intro n
    by_cases hb : validBox b <;> simp [validIndicesFrom, hb, ih]

theorem length_select_le (l : List α) (idxs : List ℕ) :
    (select l idxs).length ≤ idxs.length :=
  idxs.length_filterMap_le _

/-- Selecting with the valid indices of an all-valid box list truncates to
the box count. -/
theorem select_valid_indices_all_valid {α : Type _} (bs : List Box)
    (hval : ∀ b ∈ bs, validBox b) (l : List α) :
    select l (valid_indices bs) = l.take bs.length := by
  have h := select_validIndicesFrom_all_valid bs hval l []
  simpa [valid_indices] using h

/-- Applying the per-target filter twice is the same as applying it once. -/
theorem filterTarget_idem (t : Target) : filterTarget (filterTarget t) = filterTarget t := by
  obtain ⟨bs, ls⟩ := t
  have hvalid : ∀ b ∈ bs.filter validBox, validBox b := by
    intro b hb; exact (List.mem_filter.mp hb).2
  have hlab_le : (select ls (valid_indices bs)).length ≤ (bs.filter validBox).length := by
    calc (select ls (valid_indices bs)).length
        ≤ (valid_indices bs).length := length_select_le _ _
      _ = (bs.filter validBox).length := length_validIndicesFrom bs 0
  have hft : filterTarget ⟨bs, ls⟩
      = ⟨bs.filter validBox, select ls (valid_indices bs)⟩ := by
    simp only [filterTarget]
    rw [select_boxes_eq_filter]
  have h1 : select (bs.filter validBox) (valid_indices (bs.filter validBox))
      = bs.filter validBox := by
    rw [select_valid_indices_all_valid _ hvalid, List.take_length]
  have h2 : select (select ls (valid_indices bs)) (valid_indices (bs.filter validBox))
      = select ls (valid_indices bs) := by
    rw [select_valid_indices_all_valid _ hvalid, List.take_of_length_le hlab_le]
  rw [hft]
  simp only [filterTarget]
  rw [h1, h2]

/-- C1: `filter_and_correct_boxes` keeps, for every target, exactly the
(box, label) pairs whose box satisfies `x2 > x1` and `y2 > y1`, in the
original order and with each label still paired with its own box. -/
theorem filter_keeps_exactly_valid_pairs (ts : List Target)
    (h : ∀ t ∈ ts, t.labels.length = t.boxes.length) :
    (filter_and_correct_boxes ts).map (fun t => t.boxes.zip t.labels)
      = ts.map fun t => (t.boxes.zip t.labels).filter fun p => validBox p.1 := by
  unfold filter_and_correct_boxes
  rw [List.map_map]
  apply List.map_congr_left
  intro t ht
  have hlen := h t ht
  show (filterTarget t).boxes.zip (filterTarget t).labels = _
  simp only [filterTarget]
  rw [select_boxes_eq_filter, select_labels_eq t.boxes t.labels hlen,
    zip_filter_recombine t.boxes t.labels hlen]

/-- Concrete run of C1: one valid and one degenerate box. -/
theorem filter_keeps_exactly_valid_pairs_check :
    (∀ t ∈ [Target.mk [⟨0, 0, 2, 2⟩, ⟨0, 0, 0, 2⟩] [5, 7]],
        t.labels.length = t.boxes.length) ∧
    (filter_and_correct_boxes [Target.mk [⟨0, 0, 2, 2⟩, ⟨0, 0, 0, 2⟩] [5, 7]]).map
        (fun t => t.boxes.zip t.labels)
      = [Target.mk [⟨0, 0, 2, 2⟩, ⟨0, 0, 0, 2⟩] [5, 7]].map
          fun t => (t.boxes.zip t.labels).filter fun p => validBox p.1 :=
  ⟨by decide, filter_keeps_exactly_valid_pairs _ (by decide)⟩

/-- C5: the filter never modifies what it keeps: the kept boxes are exactly
the valid input boxes, unchanged, and the kept labels are a sublist of the
input labels. Removal is the only mitigation applied. -/
theorem filter_never_modifies_kept (ts : List Target)
    (h : ∀ t ∈ ts, t.labels.length = t.boxes.length) :
    ∀ p ∈ (filter_and_correct_boxes ts).zip ts,
      p.1.boxes = p.2.boxes.filter validBox ∧ List.Sublist p.1.labels p.2.labels := by
  intro p hp
  unfold filter_and_correct_boxes at hp
  have hzip : (ts.map filterTarget).zip ts = ts.map fun t => (filterTarget t, t) := by
    simpa using List.zip_map' filterTarget id ts
  rw [hzip] at hp
  obtain ⟨t, ht, rfl⟩ := List.mem_map.mp hp
  have hlen := h t ht
  refine ⟨select_boxes_eq_filter t.boxes, ?_⟩
  show List.Sublist (filterTarget t).labels t.labels
  simp only [filterTarget]
  rw [select_labels_eq t.boxes t.labels hlen]
  have h1 : List.Sublist ((t.boxes.zip t.labels).filter fun p => validBox p.1)
      (t.boxes.zip t.labels) := List.filter_sublist _
  have h2 := h1.map Prod.snd
  rwa [List.map_snd_zip t.boxes t.labels (le_of_eq hlen)] at h2

/-- Concrete run of C5 on a target with one degenerate box. -/
theorem filter_never_modifies_kept_check :
    (∀ t ∈ [Target.mk [⟨1, 1, 3, 4⟩, ⟨2, 5, 2, 9⟩] [1, 1]],
        t.labels.length = t.boxes.length) ∧
    ∀ p ∈ (filter_and_correct_boxes
            [Target.mk [⟨1, 1, 3, 4⟩, ⟨2, 5, 2, 9⟩] [1, 1]]).zip
          [Target.mk [⟨1, 1, 3, 4⟩, ⟨2, 5, 2, 9⟩] [1, 1]],
      p.1.boxes = p.2.boxes.filter validBox ∧ List.Sublist p.1.labels p.2.labels :=
  ⟨by decide, filter_never_modifies_kept _ (by decide)⟩

/-- C9: `filter_and_correct_boxes` is idempotent, and every box it outputs
satisfies `x2 > x1` and `y2 > y1`. -/
theorem filter_idempotent_and_output_valid (ts : List Target) :
    filter_and_correct_boxes (filter_and_correct_boxes ts) = filter_and_correct_boxes ts
      ∧ ∀ t ∈ filter_and_correct_boxes ts, ∀ b ∈ t.boxes, validBox b := by
  constructor
  · unfold filter_and_correct_boxes
    rw [List.map_map]
    apply List.map_congr_left
    intro t _
    exact filterTarget_idem t
  · intro t ht b hb
    unfold filter_and_correct_boxes at ht
    obtain ⟨t₀, _, rfl⟩ := List.mem_map.mp ht
    have : (filterTarget t₀).boxes = t₀.boxes.filter validBox :=
      select_boxes_eq_filter t₀.boxes
    rw [this] at hb
    exact (List.mem_filter.mp hb).2

/-! Coordinate-format conversion.  The script converts each COCO
`[x, y, w, h]` boxes tensor in place with two column updates
(run.py lines 124-128 in the training loop and 77-81 in `evaluate_model`):
`boxes[:, 2] += boxes[:, 0]` then `boxes[:, 3] += boxes[:, 1]`. -/

/-- Column update `boxes[:, 2] += boxes[:, 0]` over a boxes tensor. -/
def add_col0_to_col2 (bs : List Box) : List Box :=
  bs.map fun b => { b with b2 := b.b2 + b.b0 }

/-- Column update `boxes[:, 3] += boxes[:, 1]` over a boxes tensor. -/
def add_col1_to_col3 (bs : List Box) : List Box :=
  bs.map fun b => { b with b3 := b.b3 + b.b1 }

/-- Conversion of one target's boxes tensor (the body of the
`for target in targets` loop at run.py lines 124-128 / 77-81). -/
def convert_target_boxes (t : Target) : Target :=
  { t with boxes := add_col1_to_col3 (add_col0_to_col2 t.boxes) }

/-- C3: the conversion maps each box `[x, y, w, h]` to
`[x, y, x + w, y + h]`: the first two coordinates are unchanged and the
last two become `x2` and `y2`; labels are untouched. -/
theorem convert_is_xywh_to_xyxy (t : Target) :
    convert_target_boxes t
      = { boxes := t.boxes.map fun b => ⟨b.b0, b.b1, b.b0 + b.b2, b.b1 + b.b3⟩,
          labels := t.labels } := by
  simp only [convert_target_boxes, add_col0_to_col2, add_col1_to_col3, List.map_map]
  congr 1
  apply List.map_congr_left
  intro b _
  simp only [Function.comp]
  simp [Box.mk.injEq, add_comm]

/-! Best-checkpoint selection (run.py lines 114-149).  Each epoch trains the
model and evaluates it; the loop keeps `best_mean_iou` (initially `0`) and
saves the current parameters to `best_model.pth` whenever
`mean_iou > best_mean_iou`.  The training and evaluation themselves are
external; an epoch is modelled by the pair of the parameter snapshot it
produces and the mean IoU `evaluate_model` reports for it.  The `Option` is
the content of `best_model.pth` after the loop (`none` = never written). -/

/-- Body of one epoch of the loop: compare `mean_iou` with the running
`best_mean_iou` and save on strict improvement (run.py lines 145-149). -/
def train_epoch_step {α : Type _} (st : ℚ × Option α) (e : α × ℚ) : ℚ × Option α :=
  if e.2 > st.1 then (e.2, some e.1) else st

/-- The training loop over all epochs, starting from `best_mean_iou = 0`
and no saved checkpoint (run.py lines 114-117). -/
def training_loop {α : Type _} (epochs : List (α × ℚ)) : ℚ × Option α :=
  epochs.foldl train_epoch_step (0, none)

/-- Invariant of the fold: the running best never decreases, bounds every
seen mean IoU, and the state is either untouched or an epoch's own pair. -/
theorem training_fold_inv {α : Type _} :
    ∀ (epochs : List (α × ℚ)) (b₀ : ℚ) (s₀ : Option α),
      b₀ ≤ (epochs.foldl train_epoch_step (b₀, s₀)).1
      ∧ (∀ q ∈ epochs, q.2 ≤ (epochs.foldl train_epoch_step (b₀, s₀)).1)
      ∧ (epochs.foldl train_epoch_step (b₀, s₀) = (b₀, s₀)
          ∨ ∃ pm ∈ epochs, epochs.foldl train_epoch_step (b₀, s₀) = (pm.2, some pm.1)) := by
  intro epochs
  induction epochs with
  | nil => intro b₀ s₀; simp
  | cons e es ih =>
    intro b₀ s₀
    simp only [List.foldl_cons]
    by_cases h : e.2 > b₀
    · have hstep : train_epoch_step (b₀, s₀) e = (e.2, some e.1) := by
        simp [train_epoch_step, h]
      rw [hstep]
      obtain ⟨h1, h2, h3⟩ := ih e.2 (some e.1)
      refine ⟨le_trans (le_of_lt h) h1, ?_, ?_⟩
      · intro q hq
        rcases List.mem_cons.mp hq with rfl | hq'
        · exact h1
        · exact h2 q hq'
      · rcases h3 with heq | ⟨pm, hpm, heq⟩
        · exact Or.inr ⟨e, by simp, heq⟩
        · exact Or.inr ⟨pm, by simp [hpm], heq⟩
    · have hstep : train_epoch_step (b₀, s₀) e = (b₀, s₀) := by
        simp [train_epoch_step, h]
      rw [hstep]
      obtain ⟨h1, h2, h3⟩ := ih b₀ s₀
      refine ⟨h1, ?_, ?_⟩
      · intro q hq
        rcases List.mem_cons.mp hq with rfl | hq'
        · exact le_trans (not_lt.mp h) h1
        · exact h2 q hq'
      · rcases h3 with heq | ⟨pm, hpm, heq⟩
        · exact Or.inl heq
        · exact Or.inr ⟨pm, by simp [hpm], heq⟩

/-- C2: whenever the loop leaves a checkpoint in `best_model.pth`, it holds
the parameters of an epoch whose evaluation mean IoU equals the final
running best and is maximal over all epochs. -/
theorem best_checkpoint_is_max {α : Type _} (epochs : List (α × ℚ)) (p : α)
    (h : (training_loop epochs).2 = some p) :
    ∃ m : ℚ, (p, m) ∈ epochs ∧ m = (training_loop epochs).1
      ∧ ∀ q ∈ epochs, q.2 ≤ m := by
  obtain ⟨h1, h2, h3⟩ := training_fold_inv epochs 0 none
  rcases h3 with heq | ⟨pm, hpm, heq⟩
  · rw [training_loop, heq] at h
    simp at h
  · rw [training_loop, heq] at h
    simp only [Option.some.injEq] at h
    refine ⟨pm.2, ?_, ?_, ?_⟩
    · rw [← h]
      simpa using hpm
    · rw [training_loop, heq]
    · intro q hq
      have := h2 q hq
      rw [heq] at this
      exact this

/-- Concrete run of C2: two epochs, the first with the larger mean IoU. -/
theorem best_checkpoint_is_max_check :
    ∃ m : ℚ, ((1 : ℕ), m) ∈ [((1 : ℕ), (1 : ℚ)), (2, 0)]
      ∧ m = (training_loop [((1 : ℕ), (1 : ℚ)), (2, 0)]).1
      ∧ ∀ q ∈ [((1 : ℕ), (1 : ℚ)), (2, 0)], q.2 ≤ m :=
  best_checkpoint_is_max _ 1 (by decide)

/-! Model construction.  The script builds four Faster R-CNN instances
(training, checkpoint loading, image visualization, video visualization).
Only the configuration the script manipulates is modelled: the pretrained
flag and the box-predictor head with its `in_features` and `num_classes`.
The torchvision default head has 1024 input features and 91 COCO classes;
the exact defaults are irrelevant to the claims, which are about the
replacement head. -/

/-- Configuration of a `FastRCNNPredictor(in_features, num_classes)`. -/
structure FastRCNNPredictor where
  in_features : ℕ
  num_classes : ℕ
deriving DecidableEq, Repr

/-- Configuration of a Faster R-CNN model as manipulated by the script. -/
structure FasterRCNN where
  pretrained : Bool
  box_predictor : FastRCNNPredictor
deriving DecidableEq, Repr

/-- Constructor `torchvision.models.detection.fasterrcnn_resnet50_fpn`,
whose stock box predictor has 1024 input features and 91 classes. -/
def fasterrcnn_resnet50_fpn (pretrained : Bool) : FasterRCNN :=
  { pretrained := pretrained, box_predictor := { in_features := 1024, num_classes := 91 } }

/-- Global `num_classes = 2` (run.py line 37). -/
def num_classes : ℕ := 2

/-- Pretrained model of run.py line 33, before head replacement. -/
def base_model : FasterRCNN := fasterrcnn_resnet50_fpn true

/-- Global `in_features` read from the stock head (run.py line 38). -/
def in_features : ℕ := base_model.box_predictor.in_features

/-- Training model after the head replacement of run.py line 39. -/
def training_model : FasterRCNN :=
  { base_model with box_predictor := ⟨in_features, num_classes⟩ }

/-- Model rebuilt to load `best_model.pth` (run.py lines 158-159); it reuses
the globals `in_features` and `num_classes`. -/
def loading_model : FasterRCNN :=
  { fasterrcnn_resnet50_fpn false with box_predictor := ⟨in_features, num_classes⟩ }

/-- Fresh model of the single-image visualization section
(run.py lines 261-264), which recomputes `in_features` and sets
`num_classes = 2` again. -/
def image_viz_model : FasterRCNN :=
  let model := fasterrcnn_resnet50_fpn false
  let nc : ℕ := 2
  let feat := model.box_predictor.in_features
  { model with box_predictor := ⟨feat, nc⟩ }

/-- Fresh model of the video visualization section (run.py lines 336-339). -/
def video_viz_model : FasterRCNN :=
  let model := fasterrcnn_resnet50_fpn false
  let nc : ℕ := 2
  let feat := model.box_predictor.in_features
  { model with box_predictor := ⟨feat, nc⟩ }

/-- C10: every model instance the script builds has its box-predictor head
replaced by one with exactly 2 output classes: one foreground class plus
background. -/
theorem all_models_have_two_classes :
    training_model.box_predictor.num_classes = 1 + 1
    ∧ loading_model.box_predictor.num_classes = 1 + 1
    ∧ image_viz_model.box_predictor.num_classes = 1 + 1
    ∧ video_viz_model.box_predictor.num_classes = 1 + 1 := by
  refine ⟨rfl, rfl, rfl, rfl⟩

/-! Visualization.  The script defines `draw_boxes` twice, once in the
single-image section (run.py lines 233-258) and once in the video section
(run.py lines 312-333).  Drawing is modelled as the list of drawing
commands issued on the `ImageDraw` canvas; the PIL primitives
(`font.getsize`, the `f-string` score formatting, the `labels_map` dict)
are abstract parameters shared by both functions, since both sections load
the same font and map.  A box drawn on an image is the image together with
the command list, so equal command lists on the same image mean the same
drawn output. -/

/-- One drawing primitive issued on the canvas: an outlined rectangle, a
filled rectangle, or a text draw. -/
inductive DrawCmd where
  | rectOutline (x1 y1 x2 y2 : ℚ) (color : ℕ × ℕ × ℕ × ℕ) (width : ℕ)
  | rectFill (x1 y1 x2 y2 : ℚ) (fill : ℕ × ℕ × ℕ × ℕ)
  | textDraw (x y : ℚ) (s : String) (fill : String)
deriving DecidableEq, Repr

/-- Translation of `draw_boxes` from the single-image section (run.py lines
233-258): per `(box, label, score)` triple, the class colors, the two box
rectangles, the label background rectangle and the label text. -/
def draw_boxes_image (textSize : String → ℚ × ℚ) (fmtScore : ℚ → String)
    (boxes : List Box) (labels : List ℤ) (scores : List ℚ)
    (labelsMap : ℤ → String) : List DrawCmd :=
  ((boxes.zip (labels.zip scores)).map fun p =>
    let b := p.1
    let label := p.2.1
    let score := p.2.2
    let color : ℕ × ℕ × ℕ × ℕ :=
      if label = 0 then (255, 173, 10, 200)
      else if label = 1 then (28, 140, 252, 200)
      else (0, 255, 0, 200)
    let fill_color : ℕ × ℕ × ℕ × ℕ :=
      if label = 0 then (255, 173, 10, 100)
      else if label = 1 then (28, 140, 252, 100)
      else (0, 255, 0, 100)
    let label_text := labelsMap label ++ ": " ++ fmtScore score
    let ts := textSize label_text
    [DrawCmd.rectOutline b.b0 b.b1 b.b2 b.b3 color 3,
     DrawCmd.rectFill b.b0 b.b1 b.b2 b.b3 fill_color,
     DrawCmd.rectFill b.b0 (b.b1 - ts.2) (b.b0 + ts.1) b.b1 color,
     DrawCmd.textDraw b.b0 (b.b1 - ts.2) label_text "white"]).flatten

/-- Translation of `draw_boxes` from the video section (run.py lines
312-333), kept as a separate definition because the script defines the
function a second time. -/
def draw_boxes_video (textSize : String → ℚ × ℚ) (fmtScore : ℚ → String)
    (boxes : List Box) (labels : List ℤ) (scores : List ℚ)
    (labelsMap : ℤ → String) : List DrawCmd :=
  ((boxes.zip (labels.zip scores)).map fun p =>
    let b := p.1
    let label := p.2.1
    let score := p.2.2
    let color : ℕ × ℕ × ℕ × ℕ :=
      if label = 0 then (255, 173, 10, 200)
      else if label = 1 then (28, 140, 252, 200)
      else (0, 255, 0, 200)
    let fill_color : ℕ × ℕ × ℕ × ℕ :=
      if label = 0 then (255, 173, 10, 100)
      else if label = 1 then (28, 140, 252, 100)
      else (0, 255, 0, 100)
    let label_text := labelsMap label ++ ": " ++ fmtScore score
    let ts := textSize label_text
    [DrawCmd.rectOutline b.b0 b.b1 b.b2 b.b3 color 3,
     DrawCmd.rectFill b.b0 b.b1 b.b2 b.b3 fill_color,
     DrawCmd.rectFill b.b0 (b.b1 - ts.2) (b.b0 + ts.1) b.b1 color,
     DrawCmd.textDraw b.b0 (b.b1 - ts.2) label_text "white"]).flatten

/-- C6: the two `draw_boxes` definitions are extensionally equal: with the
same font metrics, score formatting, boxes, labels, scores and labels map,
both issue the same drawing commands. -/
theorem draw_boxes_image_eq_video (textSize : String → ℚ × ℚ)
    (fmtScore : ℚ → String) (boxes : List Box) (labels : List ℤ)
    (scores : List ℚ) (labelsMap : ℤ → String) :
    draw_boxes_image textSize fmtScore boxes labels scores labelsMap
      = draw_boxes_video textSize fmtScore boxes labels scores labelsMap := rfl

/-! Evaluation (run.py lines 66-107).  `evaluate_model` walks the data
loader batch by batch; per batch it rebuilds the targets from the COCO
annotation dicts, converts and filters them, runs the model, and per image
either skips (empty prediction or ground-truth boxes) or appends the mean
of the `box_iou` matrix to `iou_list` and compares labels positionwise up
to the shorter length.  The network itself and `box_iou` are external: a
batch element carries the model's outputs for its image, and the IoU entry
function is an abstract parameter. -/

/-- One COCO annotation dict as used by the script: `obj['bbox']`
(in `[x, y, w, h]` form) and `obj['category_id']`. -/
structure CocoObj where
  bbox : Box
  category_id : ℤ
deriving DecidableEq, Repr

/-- One image of an evaluation batch: the model's predicted boxes and
labels for it (`output['boxes']`, `output['labels']`) and its COCO
annotation list. -/
structure EvalImage where
  predBoxes : List Box
  predLabels : List ℤ
  annots : List CocoObj
deriving DecidableEq, Repr

/-- Construction of one target from the annotation list (run.py lines
74-76): stacked `bbox` rows and `category_id` entries. -/
def target_of_annots (objs : List CocoObj) : Target :=
  { boxes := objs.map fun o => o.bbox, labels := objs.map fun o => o.category_id }

/-- The targets of a batch after construction, in-place conversion and
filtering (run.py lines 74-84). -/
def batch_targets (batch : List EvalImage) : List Target :=
  filter_and_correct_boxes
    ((batch.map fun img => target_of_annots img.annots).map convert_target_boxes)

/-- Mean of the `box_iou(pred_boxes, true_boxes)` matrix (run.py lines
93-94): sum of all pairwise entries over the matrix size. -/
def matrix_mean (iou : Box → Box → ℚ) (ps ts : List Box) : ℚ :=
  ((ps.map fun p => (ts.map fun t => iou p t).sum).sum)
    / ((ps.length : ℚ) * (ts.length : ℚ))

/-- Body of the per-image loop of `evaluate_model` (run.py lines 88-102),
acting on the accumulator `(iou_list, correct_predictions,
total_predictions)`. -/
def eval_image_step (iou : Box → Box → ℚ) (acc : List ℚ × ℕ × ℕ)
    (p : EvalImage × Target) : List ℚ × ℕ × ℕ :=
  if p.1.predBoxes.length = 0 ∨ p.2.boxes.length = 0 then acc
  else
    let min_size := min p.1.predLabels.length p.2.labels.length
    (acc.1 ++ [matrix_mean iou p.1.predBoxes p.2.boxes],
     acc.2.1 + (((p.1.predLabels.take min_size).zip (p.2.labels.take min_size)).countP
       fun q => q.1 == q.2),
     acc.2.2 + min_size)

/-- Per-batch step of `evaluate_model`: pair each image's outputs with its
processed target (`for i, output in enumerate(outputs)` with
`targets[i]`) and run the per-image loop. -/
def eval_batch_step (iou : Box → Box → ℚ) (acc : List ℚ × ℕ × ℕ)
    (batch : List EvalImage) : List ℚ × ℕ × ℕ :=
  (batch.zip (batch_targets batch)).foldl (eval_image_step iou) acc

/-- Translation of `evaluate_model` (run.py lines 66-107): fold the batch
loop from empty accumulators, then form `mean_iou` and `accuracy` with the
guarded divisions of lines 104-105. -/
def evaluate_model (iou : Box → Box → ℚ) (batches : List (List EvalImage)) : ℚ × ℚ :=
  let r := batches.foldl (eval_batch_step iou) ([], 0, 0)
  let mean_iou : ℚ := if r.1.isEmpty then 0 else r.1.sum / (r.1.length : ℚ)
  let accuracy : ℚ := if r.2.2 = 0 then 0 else (r.2.1 : ℚ) / (r.2.2 : ℚ)
  (mean_iou, accuracy)

/-! Specification-side reformulation of the evaluation statistics: the
images of all batches, paired with their processed targets, restricted to
those with non-empty predicted and ground-truth box sets. -/

/-- All (image, processed target) pairs the evaluation loop visits. -/
def eval_pairs (batches : List (List EvalImage)) : List (EvalImage × Target) :=
  batches.flatMap fun batch => batch.zip (batch_targets batch)

/-- Test that an image contributes to the statistics: both its predicted
and its ground-truth box sets are non-empty. -/
def pair_contributes (p : EvalImage × Target) : Bool :=
  (p.1.predBoxes.length != 0) && (p.2.boxes.length != 0)

/-- The contributing (image, target) pairs of a run. -/
def good_pairs (pairs : List (EvalImage × Target)) : List (EvalImage × Target) :=
  pairs.filter pair_contributes

/-- Number of positionwise label comparisons of one image. -/
def pair_min_size (p : EvalImage × Target) : ℕ :=
  min p.1.predLabels.length p.2.labels.length

/-- Number of positionwise label matches of one image, up to the shorter
label list. -/
def pair_match_count (p : EvalImage × Target) : ℕ :=
  ((p.1.predLabels.take (pair_min_size p)).zip (p.2.labels.take (pair_min_size p))).countP
    fun q => q.1 == q.2

/-- Mean-IoU contribution of one image. -/
def pair_iou_mean (iou : Box → Box → ℚ) (p : EvalImage × Target) : ℚ :=
  matrix_mean iou p.1.predBoxes p.2.boxes

theorem zip_take_min {α β : Type _} :
    ∀ (l₁ : List α) (l₂ : List β),
      (l₁.take (min l₁.length l₂.length)).zip (l₂.take (min l₁.length l₂.length))
        = l₁.zip l₂ := by
  intro l₁
  induction l₁ with
  | nil => intro l₂; simp
  | cons a l₁ ih =>
    intro l₂
    cases l₂ with
    | nil => simp
    | cons b l₂ =>
      simp only [List.length_cons, Nat.succ_min_succ, List.take_succ_cons,
        List.zip_cons_cons]
      rw [ih]

/-- Unrolling of the per-image loop: the accumulators pick up exactly the
contributing pairs' statistics, in order. -/
theorem image_fold_char (iou : Box → Box → ℚ) :
    ∀ (pairs : List (EvalImage × Target)) (acc : List ℚ × ℕ × ℕ),
      pairs.foldl (eval_image_step iou) acc
        = (acc.1 ++ (good_pairs pairs).map (pair_iou_mean iou),
           acc.2.1 + ((good_pairs pairs).map pair_match_count).sum,
           acc.2.2 + ((good_pairs pairs).map pair_min_size).sum) := by
  intro pairs
  induction pairs with
  | nil => intro acc; simp [good_pairs]
  | cons p pairs ih =>
    intro acc
    obtain ⟨l, c, t⟩ := acc
    simp only [List.foldl_cons]
    by_cases hc : p.1.predBoxes.length = 0 ∨ p.2.boxes.length = 0
    · have hstep : eval_image_step iou (l, c, t) p = (l, c, t) := by
        simp only [eval_image_step]
        rw [if_pos hc]
      have hgood : good_pairs (p :: pairs) = good_pairs pairs := by
        have : pair_contributes p = false := by
          rcases hc with h | h <;> simp [pair_contributes, h]
        simp [good_pairs, List.filter_cons, this]
      rw [hstep, ih, hgood]
    · have hcontr : pair_contributes p = true := by
        push_neg at hc
        simp only [pair_contributes, Bool.and_eq_true, bne_iff_ne, ne_eq]
        exact ⟨hc.1, hc.2⟩
      have hstep : eval_image_step iou (l, c, t) p
          = (l ++ [pair_iou_mean iou p], c + pair_match_count p, t + pair_min_size p) := by
        simp only [eval_image_step]
        rw [if_neg hc]
        rfl
      have hgood : good_pairs (p :: pairs) = p :: good_pairs pairs := by
        simp [good_pairs, List.filter_cons, hcontr]
      rw [hstep, ih, hgood]
      simp [List.append_assoc, Nat.add_assoc]

/-- Unrolling of the batch loop: same statement over the flattened pair
list of all batches. -/
theorem batches_fold_char (iou : Box → Box → ℚ) :
    ∀ (batches : List (List EvalImage)) (acc : List ℚ × ℕ × ℕ),
      batches.foldl (eval_batch_step iou) acc
        = (acc.1 ++ (good_pairs (eval_pairs batches)).map (pair_iou_mean iou),
           acc.2.1 + ((good_pairs (eval_pairs batches)).map pair_match_count).sum,
           acc.2.2 + ((good_pairs (eval_pairs batches)).map pair_min_size).sum) := by
  intro batches
  induction batches with
  | nil => intro acc; simp [eval_pairs, good_pairs]
  | cons b bs ih =>
    intro acc
    obtain ⟨l, c, t⟩ := acc
    have hpairs : eval_pairs (b :: bs) = (b.zip (batch_targets b)) ++ eval_pairs bs := by
      simp [eval_pairs]
    have hgood : good_pairs (eval_pairs (b :: bs))
        = good_pairs (b.zip (batch_targets b)) ++ good_pairs (eval_pairs bs) := by
      rw [hpairs]; simp [good_pairs]
    simp only [List.foldl_cons, eval_batch_step]
    rw [image_fold_char iou _ (l, c, t), ih, hgood]
    simp [List.append_assoc, Nat.add_assoc]

/-- C4: the mean-IoU statistic of `evaluate_model` is the arithmetic mean,
over exactly the images whose predicted and ground-truth box sets are both
non-empty, of the mean of the pairwise IoU matrix of that image; all other
images contribute nothing. -/
theorem evaluate_mean_iou_is_contributor_mean (iou : Box → Box → ℚ)
    (batches : List (List EvalImage)) :
    (evaluate_model iou batches).1
      = if good_pairs (eval_pairs batches) = [] then 0
        else ((good_pairs (eval_pairs batches)).map (pair_iou_mean iou)).sum
              / ((good_pairs (eval_pairs batches)).length : ℚ) := by
  have hr := batches_fold_char iou batches ([], 0, 0)
  simp only [evaluate_model, hr, List.nil_append, Nat.zero_add]
  by_cases hg : good_pairs (eval_pairs batches) = []
  · simp [hg]
  · have hne : (good_pairs (eval_pairs batches)).map (pair_iou_mean iou) ≠ [] := by
      simpa using hg
    rw [if_neg hg, if_neg (by simpa [List.isEmpty_iff] using hne)]
    simp

/-- C7: the accuracy statistic compares labels positionwise only up to the
shorter of the two label lists of each contributing image: the numerator
counts matches of `zip` (which truncates to the shorter list) and the
denominator sums the minima of the lengths. -/
theorem evaluate_accuracy_compares_up_to_min (iou : Box → Box → ℚ)
    (batches : List (List EvalImage)) :
    (evaluate_model iou batches).2
      = if ((good_pairs (eval_pairs batches)).map pair_min_size).sum = 0 then 0
        else (((((good_pairs (eval_pairs batches)).map fun p =>
                (p.1.predLabels.zip p.2.labels).countP fun q => q.1 == q.2).sum : ℕ) : ℚ))
              / (((good_pairs (eval_pairs batches)).map pair_min_size).sum : ℚ) := by
  have hr := batches_fold_char iou batches ([], 0, 0)
  have hmatch : ∀ p : EvalImage × Target,
      pair_match_count p = (p.1.predLabels.zip p.2.labels).countP fun q => q.1 == q.2 := by
    intro p
    rw [pair_match_count, pair_min_size, zip_take_min]
  have hmaps : (good_pairs (eval_pairs batches)).map pair_match_count
      = (good_pairs (eval_pairs batches)).map fun p =>
          (p.1.predLabels.zip p.2.labels).countP fun q => q.1 == q.2 :=
    List.map_congr_left fun p _ => hmatch p
  simp only [evaluate_model, hr, List.nil_append, Nat.zero_add, hmaps]

/-- C8: `evaluate_model` always returns a well-defined pair: the mean IoU
is 0 whenever `iou_list` stays empty, and the accuracy is 0 whenever no
prediction was compared. -/
theorem evaluate_model_defaults_to_zero (iou : Box → Box → ℚ)
    (batches : List (List EvalImage)) :
    ((batches.foldl (eval_batch_step iou) ([], 0, 0)).1 = []
        → (evaluate_model iou batches).1 = 0)
    ∧ ((batches.foldl (eval_batch_step iou) ([], 0, 0)).2.2 = 0
        → (evaluate_model iou batches).2 = 0) := by
  constructor
  · intro h
    simp only [evaluate_model]
    rw [h]
    simp
  · intro h
    simp only [evaluate_model]
    rw [h]
    simp

/-- Concrete run of C8: no batches at all, so no image contributes. -/
theorem evaluate_model_defaults_to_zero_check :
    (([] : List (List EvalImage)).foldl (eval_batch_step fun _ _ => (0 : ℚ)) ([], 0, 0)).1 = []
    ∧ (([] : List (List EvalImage)).foldl (eval_batch_step fun _ _ => (0 : ℚ)) ([], 0, 0)).2.2 = 0
    ∧ (evaluate_model (fun _ _ => (0 : ℚ)) []).1 = 0
    ∧ (evaluate_model (fun _ _ => (0 : ℚ)) []).2 = 0 :=
  ⟨rfl, rfl, (evaluate_model_defaults_to_zero (fun _ _ => (0 : ℚ)) []).1 rfl,
    (evaluate_model_defaults_to_zero (fun _ _ => (0 : ℚ)) []).2 rfl⟩


end RunPy
